import Mathlib

/-!
Verification development for the relay server (chat relay with deferred media
resolution and a file lifecycle sweep).  The definitions below are a shallow
embedding of the JavaScript source, latest snapshot (`src/unnamed/part_001`,
which extends `src/server.js`): the in-memory `mediaMap` / `urlToKeyMap`
(JavaScript `Map`s, modelled as insertion-ordered association lists), the
`messageQueue` of pending entries, the `blobUploadComplete` / `POST /upload`
resolve pass (a downward index loop with `splice`), the `sendMessage` handler,
and the `cleanupOldFiles` sweep with its map invalidation.
-/

set_option maxRecDepth 4000

/-- The JavaScript `\s` character class used by the regex `/blob:[^\s]+/g`:
ASCII whitespace, NBSP, the Unicode space separators, line/paragraph
separators, narrow/ideographic spaces and the BOM. -/
def jsSpace (c : Char) : Bool :=
  c = ' ' || c = '\t' || c = '\n' || c = '\x0b' || c = '\x0c' || c = '\r' ||
  c = ' ' || c = ' ' || (0x2000 ≤ c.val && c.val ≤ 0x200a) ||
  c = ' ' || c = ' ' || c = ' ' || c = ' ' ||
  c = '　' || c = '﻿'

/-- Whether `pre` is a prefix of `l` (used to locate separator occurrences,
as JavaScript `String.prototype.split` does). -/
def isPrefixList : List Char → List Char → Bool
  | [], _ => true
  | _ :: _, [] => false
  | a :: as, b :: bs => a = b && isPrefixList as bs

/-- Whether `needle` occurs as a contiguous substring of `hay`: the test
performed by JavaScript `text.includes(key)`. -/
def containsSub : List Char → List Char → Bool
  | [], needle => isPrefixList needle []
  | c :: cs, needle => isPrefixList needle (c :: cs) || containsSub cs needle

/-- Core of JavaScript `String.prototype.split` for a nonempty separator:
scan left to right, cutting at each leftmost non-overlapping occurrence of
`sep`.  The `Nat` argument is recursion fuel; every step consumes at least one
character, so `length + 1` fuel always suffices on the initial call. -/
def splitFuel (sep : List Char) : Nat → List Char → List (List Char)
  | _, [] => [[]]
  | 0, s => [s]
  | fuel + 1, c :: cs =>
    if sep ≠ [] && isPrefixList sep (c :: cs) then
      [] :: splitFuel sep fuel ((c :: cs).drop sep.length)
    else
      match splitFuel sep fuel cs with
      | [] => [[c]]
      | seg :: rest => (c :: seg) :: rest

/-- JavaScript `s.split(sep)`.  An empty separator splits into the individual
characters (so `"".split("")` is `[]`), matching the JavaScript semantics. -/
def jsSplit (sep s : String) : List String :=
  if sep.data = [] then s.data.map (fun c => String.mk [c])
  else (splitFuel sep.data (s.data.length + 1) s.data).map String.mk

/-- JavaScript `s.split(sep).join(rep)`: plain literal substring replacement
of every non-overlapping occurrence of `sep` by `rep` (the idiom the source
uses in place of a regex replace). -/
def jsSplitJoin (sep rep s : String) : String :=
  String.intercalate rep (jsSplit sep s)

/-- Scanner for the regex `/blob:[^\s]+/g`: at each position, a match is the
literal `blob:` followed by the longest nonempty run of non-whitespace
characters; matching is global and non-overlapping, resuming after each
match.  Fueled; one unit of fuel is consumed per scan step and every step
advances by at least one character. -/
def blobScanF : Nat → List Char → List String
  | _, [] => []
  | 0, _ => []
  | fuel + 1, 'b' :: 'l' :: 'o' :: 'b' :: ':' :: rest =>
    match rest.takeWhile (fun c => !jsSpace c) with
    | [] => blobScanF fuel ('l' :: 'o' :: 'b' :: ':' :: rest)
    | run => String.mk ('b' :: 'l' :: 'o' :: 'b' :: ':' :: run) ::
        blobScanF fuel (rest.drop run.length)
  | fuel + 1, _ :: cs => blobScanF fuel cs

/-- `text.match(/blob:[^\s]+/g) || []`: the list of media key references
found in `text`, in order, one element per match occurrence. -/
def findBlobUrls (s : String) : List String :=
  blobScanF (s.data.length + 1) s.data

/-- JavaScript `Map.prototype.set`: overwrite in place when the key is
present (keeping insertion order), append otherwise. -/
def mapSet : List (String × String) → String → String → List (String × String)
  | [], k, v => [(k, v)]
  | (k', v') :: rest, k, v =>
    if k' = k then (k, v) :: rest else (k', v') :: mapSet rest k v

/-- JavaScript `Map.prototype.get` (`undefined` becomes `none`). -/
def mapGet : List (String × String) → String → Option String
  | [], _ => none
  | (k', v) :: rest, k => if k' = k then some v else mapGet rest k

/-- JavaScript `Map.prototype.has`. -/
def mapHas (m : List (String × String)) (k : String) : Bool :=
  (mapGet m k).isSome

/-- JavaScript `Map.prototype.delete`: remove the entry for `k` (a `Map`
holds at most one entry per key, so removing the first occurrence is exact). -/
def mapDelete : List (String × String) → String → List (String × String)
  | [], _ => []
  | (k', v) :: rest, k =>
    if k' = k then rest else (k', v) :: mapDelete rest k

/-- A chat message as the handlers access it: `msg.id`, `msg.text`, the
pre-resolved media flag `msg.media` with its `msg.mediaUrl`, and the sender
reference.  Other client-supplied fields are carried unchanged by the object
spreads in the source and are irrelevant to the state machine. -/
structure Msg where
  id : Nat
  sender : String
  text : String
  media : Bool
  mediaUrl : Option String
deriving DecidableEq, Repr

/-- JavaScript truthiness of `msg.mediaUrl` (`undefined` and `""` are falsy). -/
def truthyOpt : Option String → Bool
  | none => false
  | some u => u ≠ ""

/-- One element of `messageQueue`: `{ msg: {...msg, text}, unresolvedKeys }`. -/
structure QueueEntry where
  msg : Msg
  unresolvedKeys : List String
deriving DecidableEq, Repr

/-- The server's mutable state relevant to the claims: the media resolution
map, its reverse lookup, and the pending message queue. -/
structure ServerState where
  mediaMap : List (String × String)
  urlToKeyMap : List (String × String)
  messageQueue : List QueueEntry
deriving DecidableEq, Repr

/-- The per-entry body of the resolve pass.  For a present key
(`some k`, the usual case) it performs
`unresolvedKeys.filter(x => x !== k)` and
`msg.text = msg.text.split(k).join(url)`.  `none` models the `POST /upload`
handler running the same loop with `req.body.key === undefined`: there
`x !== undefined` keeps every string key and `text.split(undefined)` returns
`[text]`, so the entry is unchanged. -/
def stepEntry (key : Option String) (url : String) (e : QueueEntry) : QueueEntry :=
  match key with
  | some k =>
    { msg := { e.msg with text := jsSplitJoin k url e.msg.text },
      unresolvedKeys := e.unresolvedKeys.filter (fun x => x ≠ k) }
  | none => e

/-- `messageQueue.splice(i, 1)`: remove the element at index `i`. -/
def spliceAt (q : List QueueEntry) (i : Nat) : List QueueEntry :=
  q.take i ++ q.drop (i + 1)

/-- The resolve pass over the queue, exactly as the source writes it:
`for (let i = messageQueue.length - 1; i >= 0; i--)`, updating the entry in
place, broadcasting (`io.emit("newMessage", msg)`) and splicing it out when
its unresolved set has emptied.  The `Nat` argument is `i + 1` for the index
`i` about to be visited; removal at index `i` never disturbs indices below
`i`.  Returns the final queue and the broadcasts in emission order. -/
def resolveLoop (key : Option String) (url : String) :
    Nat → List QueueEntry → List Msg → List QueueEntry × List Msg
  | 0, q, bc => (q, bc)
  | i + 1, q, bc =>
    match q[i]? with
    | none => resolveLoop key url i q bc
    | some e =>
      let e2 := stepEntry key url e
      if e2.unresolvedKeys.isEmpty then
        resolveLoop key url i (spliceAt q i) (bc ++ [e2.msg])
      else
        resolveLoop key url i (q.set i e2) bc

/-- The whole resolve pass started at `i = messageQueue.length - 1`. -/
def resolvePass (key : Option String) (url : String) (q : List QueueEntry) :
    List QueueEntry × List Msg :=
  resolveLoop key url q.length q []

/-- The `blobUploadComplete` socket handler: store the mapping in both maps,
then run the resolve pass; returns the new state and the broadcasts. -/
def blobUploadComplete (key url : String) (s : ServerState) :
    ServerState × List Msg :=
  let m := mapSet s.mediaMap key url
  let u2k := mapSet s.urlToKeyMap url key
  let pr := resolvePass (some key) url s.messageQueue
  ({ mediaMap := m, urlToKeyMap := u2k, messageQueue := pr.1 }, pr.2)

/-- A sequence of `blobUploadComplete` events, threading the state and
concatenating the broadcasts in emission order. -/
def runUploads : ServerState → List (String × String) → ServerState × List Msg
  | s, [] => (s, [])
  | s, ev :: evs =>
    let r := blobUploadComplete ev.1 ev.2 s
    let rest := runUploads r.1 evs
    (rest.1, r.2 ++ rest.2)

/-- The `mediaMap.forEach` pass of `sendMessage`: substitute every
already-mapped key occurring in the text, in map insertion order. -/
def applyMediaMap (m : List (String × String)) (text : String) : String :=
  m.foldl (fun t kv => if containsSub t.data kv.1.data then jsSplitJoin kv.1 kv.2 t else t) text

/-- The `for (const blobUrl of blobUrls)` loop of `sendMessage`: each match
occurrence not already in `mediaMap` is pushed onto `unresolvedKeys` and, in
the source, simultaneously emitted as a `requestBlobUpload` to the sending
socket; the two sequences are identical. -/
def scanBlobs (m : List (String × String)) (blobUrls : List String) : List String :=
  blobUrls.foldl (fun acc b => if mapHas m b then acc else acc ++ [b]) []

/-- Result of the `sendMessage` handler.  `broadcasts` are `io.emit` payloads
(to every client); `uploadRequests` are `socket.emit("requestBlobUpload", _)`
payloads, directed only to the originating client. -/
structure SendResult where
  state : ServerState
  broadcasts : List Msg
  uploadRequests : List String
deriving DecidableEq, Repr

/-- The `sendMessage` socket handler. -/
def sendMessage (s : ServerState) (msg : Msg) : SendResult :=
  if msg.media && truthyOpt msg.mediaUrl then
    ⟨s, [msg], []⟩
  else
    let text := applyMediaMap s.mediaMap msg.text
    let unresolved := scanBlobs s.mediaMap (findBlobUrls text)
    if unresolved.isEmpty then
      ⟨s, [{ msg with text := text }], unresolved⟩
    else
      ⟨{ s with messageQueue := s.messageQueue ++ [⟨{ msg with text := text }, unresolved⟩] },
        [], unresolved⟩

/-- HTTP outcome of `POST /upload`. -/
inductive UploadStatus where
  | badRequest
  | ok (url : String) (key : Option String)
deriving DecidableEq, Repr

/-- The `POST /upload` handler.  `hasFile` is whether multer produced
`req.file`; `url` is the public URL built for it; `key` is `req.body.key`
(`none` when the field is absent).  `if (key)` is JavaScript truthiness, so
an empty-string key skips the map writes but still runs the resolve pass with
that key. -/
def postUpload (hasFile : Bool) (url : String) (key : Option String)
    (s : ServerState) : ServerState × List Msg × UploadStatus :=
  if !hasFile then (s, [], .badRequest)
  else
    let s1 :=
      match key with
      | some k =>
        if k ≠ "" then
          { s with mediaMap := mapSet s.mediaMap k url,
                   urlToKeyMap := mapSet s.urlToKeyMap url k }
        else s
      | none => s
    let pr := resolvePass key url s1.messageQueue
    ({ s1 with messageQueue := pr.1 }, pr.2, .ok url key)

/-- The `DELETE /media/:scope` handler.  An unknown scope is rejected with
400 before any effect; a valid scope only touches the filesystem (modelled by
`fsOk`), never the maps or the queue. -/
def deleteMediaScope (scope : String) (s : ServerState) (fsOk : Bool) :
    ServerState × Nat :=
  if scope ≠ "public" && scope ≠ "private" then (s, 400)
  else if fsOk then (s, 200) else (s, 500)

/-- Whether the entry's unresolved set has emptied (broadcast condition). -/
def entryDone (e : QueueEntry) : Bool := e.unresolvedKeys.isEmpty

/-! ### File lifecycle manager -/

/-- The map-invalidation step performed after a successful archive move
(`cleanupOldFiles` in the source):
`if (urlToKeyMap.has(publicUrl)) { mediaMap.delete(urlToKeyMap.get(publicUrl));
urlToKeyMap.delete(publicUrl); }` — exact-string lookup on the stored URL. -/
def invalidateByUrl (m u2k : List (String × String)) (publicUrl : String) :
    List (String × String) × List (String × String) :=
  match mapGet u2k publicUrl with
  | some key => (mapDelete m key, mapDelete u2k publicUrl)
  | none => (m, u2k)

deriving instance DecidableEq for Except

/-- One file as one sweep iteration sees it: its name, the result of
`fs.promises.stat` (`birthtimeMs` in integral milliseconds, or an error
code), and whether `fs.promises.rename` would fail (with an error code).
Fractional `birthtimeMs` values only shift the age threshold inside one
millisecond and are not modelled. -/
structure SweepFile where
  name : String
  stat : Except String Int
  renameFails : Option String
deriving DecidableEq, Repr

/-- `(now - stats.birthtimeMs) / (1000 * 60) > 10`: real-valued division by
a positive constant is strictly monotone, so the comparison is equivalent to
`now - birthtimeMs > 600000` milliseconds. -/
def ageExceedsLimit (now birth : Int) : Bool :=
  decide (600000 < now - birth)

/-- The per-file error log line (`err.message` abstracted by the code). -/
def fileErrLog (name code : String) : String :=
  "Error processing file " ++ name ++ ": " ++ code

/-- Accumulated result of one sweep. -/
structure SweepAcc where
  movedCount : Nat
  renamed : List String
  loggedErrors : List String
  mediaMap : List (String × String)
  urlToKeyMap : List (String × String)
deriving DecidableEq, Repr

/-- One iteration of the sweep loop, with its per-file `try`/`catch`: a stat
failure or a rename failure is caught; it is logged unless its code is
`ENOENT`, and the iteration ends either way.  An old-enough file is renamed
into the private directory and its exact public URL is invalidated. -/
def sweepFile (now : Int) (acc : SweepAcc) (f : SweepFile) : SweepAcc :=
  match f.stat with
  | Except.error code =>
    if code = "ENOENT" then acc
    else { acc with loggedErrors := acc.loggedErrors ++ [fileErrLog f.name code] }
  | Except.ok birth =>
    if ageExceedsLimit now birth then
      match f.renameFails with
      | some code =>
        if code = "ENOENT" then acc
        else { acc with loggedErrors := acc.loggedErrors ++ [fileErrLog f.name code] }
      | none =>
        let pr := invalidateByUrl acc.mediaMap acc.urlToKeyMap ("/uploads/" ++ f.name)
        { movedCount := acc.movedCount + 1,
          renamed := acc.renamed ++ [f.name],
          loggedErrors := acc.loggedErrors,
          mediaMap := pr.1, urlToKeyMap := pr.2 }
    else acc

/-- One whole sweep (`cleanupOldFiles`) over a successful directory listing,
starting from the current maps. -/
def cleanupOldFiles (now : Int) (files : List SweepFile)
    (m u2k : List (String × String)) : SweepAcc :=
  files.foldl (sweepFile now) ⟨0, [], [], m, u2k⟩

/-- One timer tick: the result of `fs.promises.readdir` is either a listing
or a top-level error, which the sweep's own `catch` (and the scheduler's
`.catch`) turns into a log line, leaving the maps untouched. -/
structure SweepTick where
  now : Int
  listing : Except String (List SweepFile)
deriving DecidableEq, Repr

/-- One guarded invocation of `cleanupOldFiles`: the second component is the
top-level error log line, if any. -/
def runCleanupTick (m u2k : List (String × String)) (t : SweepTick) :
    SweepAcc × Option String :=
  match t.listing with
  | Except.error e => (⟨0, [], [], m, u2k⟩, some ("File cleanup error: " ++ e))
  | Except.ok fs => (cleanupOldFiles t.now fs m u2k, none)

/-- The scheduled sweeps: each timer tick runs one guarded sweep on the maps
left by the previous tick; a tick's failure never unschedules later ticks. -/
def runSweeps (m u2k : List (String × String)) : List SweepTick → List (SweepAcc × Option String)
  | [] => []
  | t :: ts =>
    let r := runCleanupTick m u2k t
    r :: runSweeps r.1.mediaMap r.1.urlToKeyMap ts

/-- Whether the sweep moves this file: its stat succeeded and its age
exceeds the ten-minute threshold. -/
def eligibleFile (now : Int) (f : SweepFile) : Bool :=
  match f.stat with
  | Except.ok birth => ageExceedsLimit now birth
  | Except.error _ => false


/-! ### Characterization of the resolve pass -/

lemma getElem?_append_cons (l : List QueueEntry) (a : QueueEntry) (r : List QueueEntry) :
    (l ++ a :: r)[l.length]? = some a := by
  induction l with
  | nil => simp
  | cons x xs ih => simpa using ih

set_option linter.unnecessarySimpa false in
lemma set_append_cons (l : List QueueEntry) (a : QueueEntry) (r : List QueueEntry) (x : QueueEntry) :
    (l ++ a :: r).set l.length x = l ++ x :: r := by
  induction l with
  | nil => rfl
  | cons y ys ih => simpa using ih

lemma spliceAt_append_cons (l : List QueueEntry) (a : QueueEntry) (r : List QueueEntry) :
    spliceAt (l ++ a :: r) l.length = l ++ r := by
  induction l with
  | nil => rfl
  | cons y ys ih =>
    simp only [spliceAt, List.cons_append, List.length_cons, List.take_succ_cons,
      List.drop_succ_cons] at ih ⊢
    rw [ih]

lemma resolveLoop_append (key : Option String) (url : String) :
    ∀ (q1 q2 : List QueueEntry) (bc : List Msg),
      resolveLoop key url q1.length (q1 ++ q2) bc =
        ((q1.map (stepEntry key url)).filter (fun e => !entryDone e) ++ q2,
         bc ++ ((q1.map (stepEntry key url)).filter entryDone).reverse.map QueueEntry.msg) := by
  intro q1
  induction q1 using List.reverseRecOn with
  | nil => intro q2 bc; simp [resolveLoop]
  | append_singleton l a ih =>
    intro q2 bc
    have hlen : (l ++ [a]).length = l.length + 1 := by simp
    rw [hlen]
    have hassoc : (l ++ [a]) ++ q2 = l ++ a :: q2 := by simp
    rw [hassoc]
    show resolveLoop key url (l.length + 1) (l ++ a :: q2) bc = _
    rw [resolveLoop]
    rw [getElem?_append_cons]
    simp only
    by_cases hdone : (stepEntry key url a).unresolvedKeys.isEmpty
    · rw [if_pos hdone, spliceAt_append_cons, ih]
      simp [entryDone, hdone, List.filter_append, List.map_append]
    · rw [if_neg hdone, set_append_cons, ih]
      simp [entryDone, hdone, List.filter_append, List.map_append]

lemma resolvePass_eq (key : Option String) (url : String) (q : List QueueEntry) :
    resolvePass key url q =
      ((q.map (stepEntry key url)).filter (fun e => !entryDone e),
       ((q.map (stepEntry key url)).filter entryDone).reverse.map QueueEntry.msg) := by
  have h := resolveLoop_append key url q [] []
  simpa [resolvePass] using h

/-- Claim C3: a single resolve step for a key and URL treats every queued
entry exactly once and independently — the resulting queue and broadcast
batch are a pointwise map (remove the key from the entry's own unresolved
set, substitute the URL into the entry's own text) followed by a partition
on emptiness of the unresolved set; removals mid-iteration neither skip nor
revisit any entry, and an entry shared key is updated in both entries. -/
theorem claim3_resolve_pass_pointwise (k url : String) (s : ServerState) :
    (blobUploadComplete k url s).1.messageQueue =
      (s.messageQueue.map (stepEntry (some k) url)).filter (fun e => !entryDone e) ∧
    (blobUploadComplete k url s).2 =
      ((s.messageQueue.map (stepEntry (some k) url)).filter entryDone).reverse.map QueueEntry.msg := by
  constructor
  · show (resolvePass (some k) url s.messageQueue).1 = _
    rw [resolvePass_eq]
  · show (resolvePass (some k) url s.messageQueue).2 = _
    rw [resolvePass_eq]

lemma stepEntry_id (key : Option String) (url : String) (e : QueueEntry) :
    (stepEntry key url e).msg.id = e.msg.id := by
  cases key <;> rfl

lemma stepEntry_keys (k url : String) (e : QueueEntry) :
    (stepEntry (some k) url e).unresolvedKeys = e.unresolvedKeys.filter (fun x => x ≠ k) := rfl



lemma blobUploadComplete_queue (k u : String) (s : ServerState) :
    (blobUploadComplete k u s).1.messageQueue =
      (s.messageQueue.map (stepEntry (some k) u)).filter (fun e => !entryDone e) := by
  show (resolvePass (some k) u s.messageQueue).1 = _
  rw [resolvePass_eq]

lemma blobUploadComplete_msgs (k u : String) (s : ServerState) :
    (blobUploadComplete k u s).2 =
      ((s.messageQueue.map (stepEntry (some k) u)).filter entryDone).reverse.map QueueEntry.msg := by
  show (resolvePass (some k) u s.messageQueue).2 = _
  rw [resolvePass_eq]

lemma runUploads_cons (s : ServerState) (ev : String × String) (evs : List (String × String)) :
    runUploads s (ev :: evs) =
      ((runUploads (blobUploadComplete ev.1 ev.2 s).1 evs).1,
       (blobUploadComplete ev.1 ev.2 s).2 ++ (runUploads (blobUploadComplete ev.1 ev.2 s).1 evs).2) := rfl

lemma mem_batch_iff (k u : String) (q : List QueueEntry) (m : Msg) :
    m ∈ ((q.map (stepEntry (some k) u)).filter entryDone).reverse.map QueueEntry.msg ↔
      ∃ e ∈ q, entryDone (stepEntry (some k) u e) ∧ m = (stepEntry (some k) u e).msg := by
  simp only [List.mem_map, List.mem_reverse, List.mem_filter]
  constructor
  · rintro ⟨x, ⟨⟨a, ha, rfl⟩, hdone⟩, hm⟩
    exact ⟨a, ha, hdone, hm.symm⟩
  · rintro ⟨a, ha, hdone, rfl⟩
    exact ⟨stepEntry (some k) u a, ⟨⟨a, ha, rfl⟩, hdone⟩, rfl⟩

/-- After a `blobUploadComplete` step, the unique queue entry carrying a given
message id is the stepped version of the unique entry that carried it before,
provided that entry is not yet fully resolved. -/
lemma filter_id_after_step (k u : String) (s : ServerState) (e : QueueEntry)
    (h2 : s.messageQueue.filter (fun x => x.msg.id == e.msg.id) = [e])
    (hA : entryDone (stepEntry (some k) u e) = false) :
    (blobUploadComplete k u s).1.messageQueue.filter
        (fun x => x.msg.id == e.msg.id) = [stepEntry (some k) u e] := by
  rw [blobUploadComplete_queue, List.filter_filter, List.filter_map]
  have hpred : ∀ x ∈ s.messageQueue,
      ((fun x => x.msg.id == e.msg.id && !entryDone x) ∘ stepEntry (some k) u) x =
      (fun x => !entryDone (stepEntry (some k) u x) && (x.msg.id == e.msg.id)) x := by
    intro x _
    simp [Function.comp, stepEntry_id, Bool.and_comm]
  rw [List.filter_congr hpred, ← List.filter_filter, h2]
  simp [hA]

/-- Core of claims C1/C2: across any sequence of `blobUploadComplete` events,
the message of a queued entry (unique for its id) is broadcast exactly when
every one of its unresolved keys occurs among the event keys. -/
lemma runUploads_broadcast_iff :
    ∀ (evs : List (String × String)) (s : ServerState) (e : QueueEntry),
      e.unresolvedKeys ≠ [] →
      s.messageQueue.filter (fun x => x.msg.id == e.msg.id) = [e] →
      ((∃ m ∈ (runUploads s evs).2, m.id = e.msg.id) ↔
        ∀ k ∈ e.unresolvedKeys, k ∈ evs.map Prod.fst) := by
  intro evs
  induction evs with
  | nil =>
    intro s e h1 _
    apply iff_of_false
    · simp [runUploads]
    · intro hall
      rcases List.exists_mem_of_ne_nil _ h1 with ⟨k, hk⟩
      simpa using hall k hk
  | cons ev rest ih =>
    intro s e h1 h2
    have he : e ∈ s.messageQueue := by
      have : e ∈ s.messageQueue.filter (fun x => x.msg.id == e.msg.id) := by
        rw [h2]; exact List.mem_singleton.mpr rfl
      exact (List.mem_filter.mp this).1
    rw [runUploads_cons]
    by_cases hA : entryDone (stepEntry (some ev.1) ev.2 e)
    · -- the entry resolves on this very event
      apply iff_of_true
      · refine ⟨(stepEntry (some ev.1) ev.2 e).msg, ?_, stepEntry_id _ _ _⟩
        simp only [List.mem_append]
        left
        rw [blobUploadComplete_msgs]
        exact (mem_batch_iff _ _ _ _).mpr ⟨e, he, hA, rfl⟩
      · intro k hk
        have hempty : e.unresolvedKeys.filter (fun x => x ≠ ev.1) = [] := by
          simpa [entryDone, stepEntry_keys, List.isEmpty_iff] using hA
        have hkek := List.filter_eq_nil_iff.mp hempty k hk
        simp only [ne_eq, decide_not, Bool.not_eq_true', decide_eq_false_iff_not,
          not_not] at hkek
        simp [hkek]
    · -- the entry survives this event
      have hA' : entryDone (stepEntry (some ev.1) ev.2 e) = false := by
        simpa using hA
      have h1' : (stepEntry (some ev.1) ev.2 e).unresolvedKeys ≠ [] := by
        intro hnil
        rw [entryDone, hnil] at hA'
        simp at hA'
      have h2' := filter_id_after_step ev.1 ev.2 s e h2 hA'
      have hid := stepEntry_id (some ev.1) ev.2 e
      have ihx := ih (blobUploadComplete ev.1 ev.2 s).1 (stepEntry (some ev.1) ev.2 e) h1'
        (by rw [hid]; exact h2')
      rw [hid] at ihx
      have hnoB : ∀ m ∈ (blobUploadComplete ev.1 ev.2 s).2, ¬ m.id = e.msg.id := by
        intro m hm hmid
        rw [blobUploadComplete_msgs] at hm
        rcases (mem_batch_iff _ _ _ _).mp hm with ⟨a, haq, hadone, rfl⟩
        have haid : a.msg.id = e.msg.id := by
          rw [← stepEntry_id (some ev.1) ev.2 a]; exact hmid
        have : a ∈ s.messageQueue.filter (fun x => x.msg.id == e.msg.id) :=
          List.mem_filter.mpr ⟨haq, by simpa using haid⟩
        rw [h2] at this
        have : a = e := by simpa using this
        subst this
        exact hA hadone
      constructor
      · rintro ⟨m, hm, hmid⟩
        simp only [List.mem_append] at hm
        rcases hm with hm | hm
        · exact absurd hmid (hnoB m hm)
        · have : ∀ k ∈ (stepEntry (some ev.1) ev.2 e).unresolvedKeys, k ∈ rest.map Prod.fst :=
            ihx.mp ⟨m, hm, hmid⟩
          intro k hk
          by_cases hke : k = ev.1
          · simp [hke]
          · have hkf : k ∈ (stepEntry (some ev.1) ev.2 e).unresolvedKeys := by
              rw [stepEntry_keys]
              exact List.mem_filter.mpr ⟨hk, by simpa using hke⟩
            simp only [List.map_cons, List.mem_cons]
            exact Or.inr (this k hkf)
      · intro hall
        have : ∀ k ∈ (stepEntry (some ev.1) ev.2 e).unresolvedKeys, k ∈ rest.map Prod.fst := by
          intro k hk
          rw [stepEntry_keys] at hk
          rcases List.mem_filter.mp hk with ⟨hke, hne⟩
          have := hall k hke
          simp only [List.map_cons, List.mem_cons] at this
          rcases this with h | h
          · exact absurd h (by simpa using hne)
          · exact h
        rcases ihx.mpr this with ⟨m, hm, hmid⟩
        exact ⟨m, by simp only [List.mem_append]; exact Or.inr hm, hmid⟩

/-- Claim C1: for a queued pending entry (unique for its message id, with a
nonempty unresolved key set), and any sequence of resolve events in any
order, the entry's message is broadcast if and only if every one of its
unresolved keys is resolved by some event.  Instantiating `evs` at each
prefix of a run shows the broadcast appears exactly in the batch of the event
resolving the last outstanding key, regardless of resolution order. -/
theorem claim1_broadcast_iff_all_resolved (s : ServerState) (e : QueueEntry)
    (evs : List (String × String))
    (h1 : e.unresolvedKeys ≠ [])
    (h2 : s.messageQueue.filter (fun x => x.msg.id == e.msg.id) = [e]) :
    (∃ m ∈ (runUploads s evs).2, m.id = e.msg.id) ↔
      ∀ k ∈ e.unresolvedKeys, k ∈ evs.map Prod.fst :=
  runUploads_broadcast_iff evs s e h1 h2

/-- Concrete instance of claim C1's theorem: one entry with two unresolved keys, resolved in reverse order. -/
theorem claim1_witness :
    ((⟨⟨7, "alice", "a blob:x b blob:y", false, none⟩, ["blob:x", "blob:y"]⟩ : QueueEntry).unresolvedKeys ≠ [] ∧
     (⟨[], [], [⟨⟨7, "alice", "a blob:x b blob:y", false, none⟩, ["blob:x", "blob:y"]⟩]⟩ :
        ServerState).messageQueue.filter
          (fun x => x.msg.id == (⟨⟨7, "alice", "a blob:x b blob:y", false, none⟩,
            ["blob:x", "blob:y"]⟩ : QueueEntry).msg.id) =
        [⟨⟨7, "alice", "a blob:x b blob:y", false, none⟩, ["blob:x", "blob:y"]⟩]) ∧
    ((∃ m ∈ (runUploads ⟨[], [], [⟨⟨7, "alice", "a blob:x b blob:y", false, none⟩, ["blob:x", "blob:y"]⟩]⟩
        [("blob:y", "http://h/uploads/y.png"), ("blob:x", "http://h/uploads/x.png")]).2,
        m.id = (⟨⟨7, "alice", "a blob:x b blob:y", false, none⟩,
          ["blob:x", "blob:y"]⟩ : QueueEntry).msg.id) ↔
      ∀ k ∈ (⟨⟨7, "alice", "a blob:x b blob:y", false, none⟩,
          ["blob:x", "blob:y"]⟩ : QueueEntry).unresolvedKeys,
        k ∈ ([("blob:y", "http://h/uploads/y.png"),
          ("blob:x", "http://h/uploads/x.png")] : List (String × String)).map Prod.fst) :=
  ⟨⟨by decide, by decide⟩,
    claim1_broadcast_iff_all_resolved
      ⟨[], [], [⟨⟨7, "alice", "a blob:x b blob:y", false, none⟩, ["blob:x", "blob:y"]⟩]⟩
      ⟨⟨7, "alice", "a blob:x b blob:y", false, none⟩, ["blob:x", "blob:y"]⟩
      [("blob:y", "http://h/uploads/y.png"), ("blob:x", "http://h/uploads/x.png")]
      (by decide) (by decide)⟩

/-- Every message broadcast during a run of resolve events originates from
some entry of the starting queue (with the same message id). -/
lemma runUploads_broadcast_src :
    ∀ (evs : List (String × String)) (s : ServerState) (m : Msg),
      m ∈ (runUploads s evs).2 → ∃ x ∈ s.messageQueue, x.msg.id = m.id := by
  intro evs
  induction evs with
  | nil => intro s m hm; simp [runUploads] at hm
  | cons ev rest ih =>
    intro s m hm
    rw [runUploads_cons] at hm
    simp only [List.mem_append] at hm
    rcases hm with hm | hm
    · rw [blobUploadComplete_msgs] at hm
      rcases (mem_batch_iff _ _ _ _).mp hm with ⟨a, haq, _, rfl⟩
      exact ⟨a, haq, (stepEntry_id _ _ _).symm⟩
    · rcases ih _ m hm with ⟨x, hx, hxid⟩
      rw [blobUploadComplete_queue] at hx
      rcases List.mem_filter.mp hx with ⟨hx, _⟩
      rcases List.mem_map.mp hx with ⟨a, ha, rfl⟩
      exact ⟨a, ha, by rw [stepEntry_id] at hxid; exact hxid⟩

/-- Restricting the resolved entries of one pass to a message id commutes
with restricting the queue to that id first (ids are preserved by the step). -/
lemma filter_id_done_comm (k u : String) (i : Nat) (q : List QueueEntry) :
    (q.map (stepEntry (some k) u)).filter (fun a => (a.msg.id == i) && entryDone a) =
      ((q.filter (fun x => x.msg.id == i)).map (stepEntry (some k) u)).filter entryDone := by
  induction q with
  | nil => rfl
  | cons a t ih =>
    simp only [List.map_cons, List.filter_cons]
    by_cases hid : a.msg.id = i
    · by_cases hd : entryDone (stepEntry (some k) u a) = true
      · simp [stepEntry_id, hid, hd, ih]
      · simp [stepEntry_id, hid, hd, ih]
    · simp [stepEntry_id, hid, ih]

/-- The batch of one `blobUploadComplete` event, restricted to a given unique
message id, is what the unique carrier entry contributes. -/
lemma batch_filter_id (k u : String) (s : ServerState) (e : QueueEntry)
    (h2 : s.messageQueue.filter (fun x => x.msg.id == e.msg.id) = [e]) :
    (blobUploadComplete k u s).2.filter (fun m => m.id == e.msg.id) =
      (([e].map (stepEntry (some k) u)).filter entryDone).reverse.map QueueEntry.msg := by
  rw [blobUploadComplete_msgs, List.filter_map, List.filter_reverse]
  show ((((s.messageQueue.map (stepEntry (some k) u)).filter entryDone).filter
      (fun x => x.msg.id == e.msg.id)).reverse).map QueueEntry.msg = _
  rw [List.filter_filter, filter_id_done_comm, h2]

/-- Claim C2: resolving the single unresolved key of a queued entry
broadcasts the entry exactly once, with every literal occurrence of the key
replaced by the URL, removes it from the queue, and no later resolve event
ever broadcasts it again. -/
theorem claim2_single_key_resolve (s : ServerState) (e : QueueEntry) (k url : String)
    (h1 : e.unresolvedKeys = [k])
    (h2 : s.messageQueue.filter (fun x => x.msg.id == e.msg.id) = [e]) :
    (blobUploadComplete k url s).2.filter (fun m => m.id == e.msg.id) =
      [{ e.msg with text := jsSplitJoin k url e.msg.text }] ∧
    (∀ x ∈ (blobUploadComplete k url s).1.messageQueue, x.msg.id ≠ e.msg.id) ∧
    (∀ evs : List (String × String),
      ∀ m ∈ (runUploads (blobUploadComplete k url s).1 evs).2, m.id ≠ e.msg.id) := by
  have hdone : entryDone (stepEntry (some k) url e) = true := by
    simp [entryDone, stepEntry_keys, h1]
  have hq : ∀ x ∈ (blobUploadComplete k url s).1.messageQueue, x.msg.id ≠ e.msg.id := by
    intro x hx hxid
    rw [blobUploadComplete_queue] at hx
    rcases List.mem_filter.mp hx with ⟨hx', hnd⟩
    rcases List.mem_map.mp hx' with ⟨a, ha, rfl⟩
    have haid : a.msg.id = e.msg.id := by rw [stepEntry_id] at hxid; exact hxid
    have : a ∈ s.messageQueue.filter (fun x => x.msg.id == e.msg.id) :=
      List.mem_filter.mpr ⟨ha, by simpa using haid⟩
    rw [h2] at this
    have : a = e := by simpa using this
    subst this
    rw [hdone] at hnd
    simp at hnd
  refine ⟨?_, hq, ?_⟩
  · rw [batch_filter_id k url s e h2]
    simp [hdone]
    rfl
  · intro evs m hm hmid
    rcases runUploads_broadcast_src evs _ m hm with ⟨x, hx, hxid⟩
    exact hq x hx (hxid.trans hmid)

/-- Concrete instance of claim C2's theorem: the spec's own scenario. -/
theorem claim2_witness :
    ((⟨⟨3, "bob", "see blob:abc", false, none⟩, ["blob:abc"]⟩ : QueueEntry).unresolvedKeys = ["blob:abc"] ∧
     (⟨[], [], [⟨⟨3, "bob", "see blob:abc", false, none⟩, ["blob:abc"]⟩]⟩ :
        ServerState).messageQueue.filter
          (fun x => x.msg.id == (⟨⟨3, "bob", "see blob:abc", false, none⟩,
            ["blob:abc"]⟩ : QueueEntry).msg.id) =
        [⟨⟨3, "bob", "see blob:abc", false, none⟩, ["blob:abc"]⟩]) ∧
    ((blobUploadComplete "blob:abc" "https://host/files/xyz.png"
        ⟨[], [], [⟨⟨3, "bob", "see blob:abc", false, none⟩, ["blob:abc"]⟩]⟩).2.filter
          (fun m => m.id == (⟨⟨3, "bob", "see blob:abc", false, none⟩,
            ["blob:abc"]⟩ : QueueEntry).msg.id) =
        [{ (⟨⟨3, "bob", "see blob:abc", false, none⟩, ["blob:abc"]⟩ : QueueEntry).msg with
            text := jsSplitJoin "blob:abc" "https://host/files/xyz.png" "see blob:abc" }] ∧
     (∀ x ∈ (blobUploadComplete "blob:abc" "https://host/files/xyz.png"
        ⟨[], [], [⟨⟨3, "bob", "see blob:abc", false, none⟩, ["blob:abc"]⟩]⟩).1.messageQueue,
        x.msg.id ≠ (⟨⟨3, "bob", "see blob:abc", false, none⟩, ["blob:abc"]⟩ : QueueEntry).msg.id) ∧
     (∀ evs : List (String × String),
       ∀ m ∈ (runUploads (blobUploadComplete "blob:abc" "https://host/files/xyz.png"
          ⟨[], [], [⟨⟨3, "bob", "see blob:abc", false, none⟩, ["blob:abc"]⟩]⟩).1 evs).2,
         m.id ≠ (⟨⟨3, "bob", "see blob:abc", false, none⟩, ["blob:abc"]⟩ : QueueEntry).msg.id)) :=
  ⟨⟨by decide, by decide⟩,
    claim2_single_key_resolve
      ⟨[], [], [⟨⟨3, "bob", "see blob:abc", false, none⟩, ["blob:abc"]⟩]⟩
      ⟨⟨3, "bob", "see blob:abc", false, none⟩, ["blob:abc"]⟩
      "blob:abc" "https://host/files/xyz.png" (by decide) (by decide)⟩

/-! ### sendMessage claims -/

/-- Claim C7: a submission that does not take the pre-resolved fast path,
whose text is untouched by the already-resolved substitution pass and
contains no media key reference, is broadcast synchronously exactly as
submitted, and the server state — in particular the pending message queue —
is left completely unchanged. -/
theorem claim7_no_refs_broadcasts_immediately (s : ServerState) (msg : Msg)
    (hfast : (msg.media && truthyOpt msg.mediaUrl) = false)
    (hsub : applyMediaMap s.mediaMap msg.text = msg.text)
    (hrefs : findBlobUrls msg.text = []) :
    sendMessage s msg = ⟨s, [msg], []⟩ := by
  unfold sendMessage
  rw [hfast]
  simp only [Bool.false_eq_true, if_false, hsub, hrefs]
  show (if ([] : List String).isEmpty = true then _ else _) = _
  simp only [List.isEmpty_nil, if_true]
  rfl

/-- Concrete instance of claim C7's theorem: plain text, nonempty media map. -/
theorem claim7_witness :
    ((false && truthyOpt (none : Option String)) = false ∧
     applyMediaMap [("blob:z", "http://h/uploads/z.png")] "hello world" = "hello world" ∧
     findBlobUrls "hello world" = []) ∧
    sendMessage ⟨[("blob:z", "http://h/uploads/z.png")], [], []⟩
        ⟨9, "carol", "hello world", false, none⟩ =
      ⟨⟨[("blob:z", "http://h/uploads/z.png")], [], []⟩,
        [⟨9, "carol", "hello world", false, none⟩], []⟩ :=
  ⟨⟨by decide, by decide, by decide⟩,
    claim7_no_refs_broadcasts_immediately
      ⟨[("blob:z", "http://h/uploads/z.png")], [], []⟩
      ⟨9, "carol", "hello world", false, none⟩
      (by decide) (by decide) (by decide)⟩

/-- Claim C8 counterexample: a message whose text contains the same
unresolved key twice causes `requestBlobUpload` to be emitted twice for that
single distinct key — one request per match occurrence, not one per distinct
key. -/
theorem claim8_counterexample :
    (sendMessage ⟨[], [], []⟩ ⟨1, "dave", "blob:a blob:a", false, none⟩).uploadRequests =
      ["blob:a", "blob:a"] ∧
    (sendMessage ⟨[], [], []⟩ ⟨1, "dave", "blob:a blob:a", false, none⟩).uploadRequests.length ≠ 1 := by
  constructor
  · decide
  · decide

/-- The request-collection loop keeps exactly the match occurrences whose key
is not in the media map, in order. -/
lemma scanBlobs_eq_filter (m : List (String × String)) :
    ∀ (l acc : List String),
      l.foldl (fun acc b => if mapHas m b then acc else acc ++ [b]) acc =
        acc ++ l.filter (fun b => !mapHas m b) := by
  intro l
  induction l with
  | nil => intro acc; simp
  | cons b t ih =>
    intro acc
    simp only [List.foldl_cons, List.filter_cons]
    by_cases hb : mapHas m b
    · simp [hb, ih]
    · simp [hb, ih]

/-- Claim C8 amended: on the non-fast path, `requestBlobUpload` events go
only to the originating client (the `uploadRequests` channel of the model,
`socket.emit` in the source, as opposed to the `io.emit` broadcasts), one
request per match occurrence of an unresolved key in the substituted text —
so a key occurring twice is requested twice, not once. -/
theorem claim8_amended_requests_per_occurrence (s : ServerState) (msg : Msg)
    (hfast : (msg.media && truthyOpt msg.mediaUrl) = false) :
    (sendMessage s msg).uploadRequests =
      (findBlobUrls (applyMediaMap s.mediaMap msg.text)).filter
        (fun b => !mapHas s.mediaMap b) := by
  unfold sendMessage
  rw [hfast]
  simp only [Bool.false_eq_true, if_false]
  rw [show scanBlobs s.mediaMap (findBlobUrls (applyMediaMap s.mediaMap msg.text)) =
      (findBlobUrls (applyMediaMap s.mediaMap msg.text)).filter
        (fun b => !mapHas s.mediaMap b) by
    simpa using scanBlobs_eq_filter s.mediaMap (findBlobUrls (applyMediaMap s.mediaMap msg.text)) []]
  split <;> rfl

/-- Concrete instance of claim C8's amended theorem: one mapped and one unmapped key, the latter occurring twice. -/
theorem claim8_witness :
    ((false && truthyOpt (none : Option String)) = false ∧
     (sendMessage ⟨[("blob:b", "http://h/uploads/b.png")], [], []⟩
        ⟨2, "erin", "blob:a blob:b blob:a", false, none⟩).uploadRequests =
      (findBlobUrls (applyMediaMap [("blob:b", "http://h/uploads/b.png")]
          "blob:a blob:b blob:a")).filter
        (fun b => !mapHas [("blob:b", "http://h/uploads/b.png")] b)) :=
  ⟨by decide,
    claim8_amended_requests_per_occurrence
      ⟨[("blob:b", "http://h/uploads/b.png")], [], []⟩
      ⟨2, "erin", "blob:a blob:b blob:a", false, none⟩ (by decide)⟩

/-! ### Upload endpoint and administrative deletion claims -/

/-- Claim C9: a `POST /upload` without a file payload is rejected with 400
before any state is touched, and a `DELETE /media/:scope` with an unknown
scope selector is rejected with 400; neither mutates the media resolution
map, the reverse map, or the pending message queue. -/
theorem claim9_invalid_input_rejected (url : String) (key : Option String)
    (s : ServerState) (scope : String) (fsOk : Bool)
    (hpub : scope ≠ "public") (hpriv : scope ≠ "private") :
    postUpload false url key s = (s, [], UploadStatus.badRequest) ∧
    deleteMediaScope scope s fsOk = (s, 400) := by
  constructor
  · rfl
  · unfold deleteMediaScope
    rw [if_pos]
    simp [hpub, hpriv]

/-- Concrete instance of claim C9's theorem: scope selector that is neither public nor private. -/
theorem claim9_witness :
    (("all" : String) ≠ "public" ∧ ("all" : String) ≠ "private") ∧
    (postUpload false "http://h/uploads/f.png" (some "blob:k")
        ⟨[("k0", "u0")], [("u0", "k0")], [⟨⟨1, "s", "t", false, none⟩, ["blob:q"]⟩]⟩ =
      (⟨[("k0", "u0")], [("u0", "k0")], [⟨⟨1, "s", "t", false, none⟩, ["blob:q"]⟩]⟩,
        [], UploadStatus.badRequest) ∧
     deleteMediaScope "all"
        ⟨[("k0", "u0")], [("u0", "k0")], [⟨⟨1, "s", "t", false, none⟩, ["blob:q"]⟩]⟩ true =
      (⟨[("k0", "u0")], [("u0", "k0")], [⟨⟨1, "s", "t", false, none⟩, ["blob:q"]⟩]⟩, 400)) :=
  ⟨⟨by decide, by decide⟩,
    claim9_invalid_input_rejected "http://h/uploads/f.png" (some "blob:k")
      ⟨[("k0", "u0")], [("u0", "k0")], [⟨⟨1, "s", "t", false, none⟩, ["blob:q"]⟩]⟩
      "all" true (by decide) (by decide)⟩

/-- Claim C10: a `POST /upload` carrying a file but no `key` field responds
with success and the file's URL, and — since the resolve pass then runs with
an undefined key, which removes nothing from any unresolved set and leaves
every text unchanged — the whole server state (media map, reverse map, and
every queue entry) is unchanged, provided every queued entry still has a
nonempty unresolved set (which is how entries enter and stay in the queue). -/
theorem claim10_upload_without_key_noop (url : String) (s : ServerState)
    (hq : ∀ e ∈ s.messageQueue, e.unresolvedKeys ≠ []) :
    postUpload true url none s = (s, [], UploadStatus.ok url none) := by
  unfold postUpload
  simp only [Bool.not_true, Bool.false_eq_true, if_false]
  rw [resolvePass_eq]
  have hmap : s.messageQueue.map (stepEntry none url) = s.messageQueue :=
    List.map_id'' (fun e => rfl) s.messageQueue
  rw [hmap]
  have hfilter : s.messageQueue.filter (fun e => !entryDone e) = s.messageQueue := by
    apply List.filter_eq_self.mpr
    intro e he
    simp [entryDone, List.isEmpty_iff, hq e he]
  have hfilter2 : s.messageQueue.filter entryDone = [] := by
    apply List.filter_eq_nil_iff.mpr
    intro e he
    simp [entryDone, List.isEmpty_iff, hq e he]
  rw [hfilter, hfilter2]
  rfl

/-- Concrete instance of claim C10's theorem: nonempty maps and queue. -/
theorem claim10_witness :
    (∀ e ∈ (⟨[("k0", "u0")], [("u0", "k0")],
        [⟨⟨4, "s", "x blob:q", false, none⟩, ["blob:q"]⟩]⟩ : ServerState).messageQueue,
      e.unresolvedKeys ≠ []) ∧
    postUpload true "http://h/uploads/n.png" none
        ⟨[("k0", "u0")], [("u0", "k0")], [⟨⟨4, "s", "x blob:q", false, none⟩, ["blob:q"]⟩]⟩ =
      (⟨[("k0", "u0")], [("u0", "k0")], [⟨⟨4, "s", "x blob:q", false, none⟩, ["blob:q"]⟩]⟩,
        [], UploadStatus.ok "http://h/uploads/n.png" none) :=
  ⟨by decide,
    claim10_upload_without_key_noop "http://h/uploads/n.png"
      ⟨[("k0", "u0")], [("u0", "k0")], [⟨⟨4, "s", "x blob:q", false, none⟩, ["blob:q"]⟩]⟩
      (by decide)⟩

/-! ### Media map invalidation (claim C4) -/

lemma mapGet_mem (m : List (String × String)) (k v : String) :
    mapGet m k = some v → (k, v) ∈ m := by
  induction m with
  | nil => intro h; simp [mapGet] at h
  | cons kv rest ih =>
    intro h
    rcases kv with ⟨k', v'⟩
    rw [mapGet] at h
    by_cases hk : k' = k
    · rw [if_pos hk] at h
      subst hk
      simp at h
      simp [h]
    · rw [if_neg hk] at h
      exact List.mem_cons_of_mem _ (ih h)

lemma mapGet_eq_none_of_not_mem_keys (m : List (String × String)) (k : String)
    (h : k ∉ m.map Prod.fst) : mapGet m k = none := by
  induction m with
  | nil => rfl
  | cons kv rest ih =>
    rcases kv with ⟨k', v'⟩
    simp only [List.map_cons, List.mem_cons] at h
    push_neg at h
    rw [mapGet, if_neg (fun he => h.1 he.symm)]
    exact ih h.2

lemma mapGet_mapDelete (m : List (String × String)) (k0 k : String)
    (hnd : (m.map Prod.fst).Nodup) :
    mapGet (mapDelete m k0) k = if k = k0 then none else mapGet m k := by
  induction m with
  | nil => simp [mapDelete, mapGet]
  | cons kv rest ih =>
    rcases kv with ⟨k', v'⟩
    simp only [List.map_cons, List.nodup_cons] at hnd
    rw [mapDelete]
    by_cases hk' : k' = k0
    · rw [if_pos hk']
      by_cases hk : k = k0
      · rw [if_pos hk]
        apply mapGet_eq_none_of_not_mem_keys
        rw [hk, ← hk']
        exact hnd.1
      · rw [if_neg hk, mapGet, if_neg (fun he => hk (by rw [← he, hk']))]
    · rw [if_neg hk', mapGet, mapGet]
      by_cases hk : k' = k
      · rw [if_pos hk, if_pos hk]
        rw [if_neg (fun he : k = k0 => hk' (hk.trans he))]
      · rw [if_neg hk, if_neg hk, ih hnd.2]

/-- Claim C4 counterexample.  The state is reachable: two
`blobUploadComplete` events register the keys `k1` and `k2` for the same URL
`/uploads/a.png`; the reverse lookup then names only `k2`, so invalidating
that exact URL (as the sweep does when `a.png` is archived) removes `k2` but
leaves `k1`, whose stored URL is exact-string equal to the archived URL —
contradicting "removes ... exactly for those keys whose stored URL is
exact-string equal". -/
theorem claim4_counterexample :
    mapGet ((blobUploadComplete "k2" "/uploads/a.png"
        (blobUploadComplete "k1" "/uploads/a.png" ⟨[], [], []⟩).1).1).mediaMap "k1" =
      some "/uploads/a.png" ∧
    mapGet (invalidateByUrl
        ((blobUploadComplete "k2" "/uploads/a.png"
          (blobUploadComplete "k1" "/uploads/a.png" ⟨[], [], []⟩).1).1).mediaMap
        ((blobUploadComplete "k2" "/uploads/a.png"
          (blobUploadComplete "k1" "/uploads/a.png" ⟨[], [], []⟩).1).1).urlToKeyMap
        "/uploads/a.png").1 "k1" = some "/uploads/a.png" := by
  constructor
  · decide
  · decide

/-- Claim C4 amended: `invalidateByUrl` uses exact-string matching on the
stored URL — it removes at most the single key named by the reverse lookup
under exactly that URL, together with that reverse entry, and never touches
an entry whose stored URL is different (in particular one that merely
contains the URL as a substring).  When the two maps are mutually consistent
at that URL — every forward entry storing the URL is the one the reverse
lookup names, and vice versa — this removes exactly the keys whose stored
URL is exact-string equal to it. -/
theorem claim4_amended_invalidate_exact (m u2k : List (String × String)) (url : String)
    (hmnd : (m.map Prod.fst).Nodup)
    (hund : (u2k.map Prod.fst).Nodup)
    (hfwd : ∀ kv ∈ m, kv.2 = url → mapGet u2k url = some kv.1)
    (hrev : ∀ kv ∈ u2k, kv.1 = url → mapGet m kv.2 = some url) :
    (∀ k, mapGet (invalidateByUrl m u2k url).1 k =
      (if mapGet m k = some url then none else mapGet m k)) ∧
    (∀ v, mapGet (invalidateByUrl m u2k url).2 v =
      (if v = url then none else mapGet u2k v)) := by
  unfold invalidateByUrl
  cases hu : mapGet u2k url with
  | none =>
    simp only
    constructor
    · intro k
      by_cases hk : mapGet m k = some url
      · rcases mapGet_mem m k url hk with hmem
        have := hfwd (k, url) hmem rfl
        rw [hu] at this
        cases this
      · rw [if_neg hk]
    · intro v
      by_cases hv : v = url
      · rw [if_pos hv, hv, hu]
      · rw [if_neg hv]
  | some k0 =>
    have hk0 : mapGet m k0 = some url := by
      have hmem := mapGet_mem u2k url k0 hu
      exact hrev (url, k0) hmem rfl
    simp only
    constructor
    · intro k
      rw [mapGet_mapDelete m k0 k hmnd]
      by_cases hk : k = k0
      · subst hk
        rw [if_pos rfl, if_pos hk0]
      · rw [if_neg hk]
        by_cases hkv : mapGet m k = some url
        · rcases mapGet_mem m k url hkv with hmem
          have := hfwd (k, url) hmem rfl
          rw [hu] at this
          have hkk : k0 = k := by injection this
          exact absurd hkk.symm hk
        · rw [if_neg hkv]
    · intro v
      rw [mapGet_mapDelete u2k url v hund]

/-- Concrete instance of claim C4's amended theorem: one stored URL a strict substring of another; only the exact match is removed. -/
theorem claim4_witness :
    ((([("k", "/uploads/a.png"), ("k2", "/uploads/a.png2")] :
        List (String × String)).map Prod.fst).Nodup ∧
     (([("/uploads/a.png", "k"), ("/uploads/a.png2", "k2")] :
        List (String × String)).map Prod.fst).Nodup ∧
     (∀ kv ∈ ([("k", "/uploads/a.png"), ("k2", "/uploads/a.png2")] : List (String × String)),
        kv.2 = "/uploads/a.png" →
          mapGet [("/uploads/a.png", "k"), ("/uploads/a.png2", "k2")] "/uploads/a.png" =
            some kv.1) ∧
     (∀ kv ∈ ([("/uploads/a.png", "k"), ("/uploads/a.png2", "k2")] : List (String × String)),
        kv.1 = "/uploads/a.png" →
          mapGet [("k", "/uploads/a.png"), ("k2", "/uploads/a.png2")] kv.2 =
            some "/uploads/a.png")) ∧
    ((∀ k, mapGet (invalidateByUrl [("k", "/uploads/a.png"), ("k2", "/uploads/a.png2")]
        [("/uploads/a.png", "k"), ("/uploads/a.png2", "k2")] "/uploads/a.png").1 k =
      (if mapGet [("k", "/uploads/a.png"), ("k2", "/uploads/a.png2")] k =
          some "/uploads/a.png" then none
        else mapGet [("k", "/uploads/a.png"), ("k2", "/uploads/a.png2")] k)) ∧
     (∀ v, mapGet (invalidateByUrl [("k", "/uploads/a.png"), ("k2", "/uploads/a.png2")]
        [("/uploads/a.png", "k"), ("/uploads/a.png2", "k2")] "/uploads/a.png").2 v =
      (if v = "/uploads/a.png" then none
        else mapGet [("/uploads/a.png", "k"), ("/uploads/a.png2", "k2")] v))) :=
  ⟨⟨by decide, by decide, by decide, by decide⟩,
    claim4_amended_invalidate_exact
      [("k", "/uploads/a.png"), ("k2", "/uploads/a.png2")]
      [("/uploads/a.png", "k"), ("/uploads/a.png2", "k2")]
      "/uploads/a.png" (by decide) (by decide) (by decide) (by decide)⟩

/-! ### Sweep behaviour (claims C5, C6) -/

/-- Generalized fold lemma for a sweep in which every stat and rename
succeeds: the renamed files are exactly the eligible ones (in order),
nothing is logged, and when no file is eligible the maps are untouched. -/
lemma cleanup_fold_ok (now : Int) :
    ∀ (files : List SweepFile) (acc : SweepAcc),
      (∀ f ∈ files, (∃ b, f.stat = Except.ok b) ∧ f.renameFails = none) →
      (files.foldl (sweepFile now) acc).renamed =
          acc.renamed ++ (files.filter (eligibleFile now)).map SweepFile.name ∧
      (files.foldl (sweepFile now) acc).loggedErrors = acc.loggedErrors ∧
      (files.foldl (sweepFile now) acc).movedCount =
          acc.movedCount + (files.filter (eligibleFile now)).length ∧
      (files.filter (eligibleFile now) = [] →
        (files.foldl (sweepFile now) acc).mediaMap = acc.mediaMap ∧
        (files.foldl (sweepFile now) acc).urlToKeyMap = acc.urlToKeyMap) := by
  intro files
  induction files with
  | nil => intro acc _; simp
  | cons f rest ih =>
    intro acc hall
    have hf := hall f (List.mem_cons_self f rest)
    have hrest := fun g hg => hall g (List.mem_cons_of_mem f hg)
    rcases hf with ⟨⟨b, hb⟩, hre⟩
    simp only [List.foldl_cons, List.filter_cons]
    by_cases he : eligibleFile now f = true
    · have he' : ageExceedsLimit now b = true := by
        rw [eligibleFile, hb] at he
        exact he
      have hstep : sweepFile now acc f =
          { movedCount := acc.movedCount + 1,
            renamed := acc.renamed ++ [f.name],
            loggedErrors := acc.loggedErrors,
            mediaMap := (invalidateByUrl acc.mediaMap acc.urlToKeyMap ("/uploads/" ++ f.name)).1,
            urlToKeyMap := (invalidateByUrl acc.mediaMap acc.urlToKeyMap ("/uploads/" ++ f.name)).2 } := by
        simp [sweepFile, hb, he', hre]
      rw [he]
      rcases ih (sweepFile now acc f) hrest with ⟨ihr, ihl, ihc, _⟩
      refine ⟨?_, ?_, ?_, ?_⟩
      · rw [ihr, hstep]; simp
      · rw [ihl, hstep]
      · rw [ihc, hstep]; simp; omega
      · intro hcontra; cases hcontra
    · have he' : ageExceedsLimit now b = false := by
        rw [eligibleFile, hb] at he
        simpa using he
      have hstep : sweepFile now acc f = acc := by
        simp [sweepFile, hb, he']
      simp only [Bool.not_eq_true] at he
      rw [he]
      simp only [Bool.false_eq_true, if_false]
      rw [hstep]
      exact ih _ hrest

/-- Claim C5: in a sweep where every stat and rename succeeds, exactly the
files older than the ten-minute threshold are moved (by rename) to the
archive area, in listing order; younger files are left untouched; no error
is logged; and a sweep with zero eligible files leaves both maps unchanged. -/
theorem claim5_sweep_moves_exactly_eligible (now : Int) (files : List SweepFile)
    (m u2k : List (String × String))
    (hall : ∀ f ∈ files, (∃ b, f.stat = Except.ok b) ∧ f.renameFails = none) :
    (cleanupOldFiles now files m u2k).renamed =
      (files.filter (eligibleFile now)).map SweepFile.name ∧
    (cleanupOldFiles now files m u2k).loggedErrors = [] ∧
    (cleanupOldFiles now files m u2k).movedCount =
      (files.filter (eligibleFile now)).length ∧
    (files.filter (eligibleFile now) = [] →
      (cleanupOldFiles now files m u2k).mediaMap = m ∧
      (cleanupOldFiles now files m u2k).urlToKeyMap = u2k) := by
  have h := cleanup_fold_ok now files ⟨0, [], [], m, u2k⟩ hall
  simpa [cleanupOldFiles] using h

/-- Concrete instances of claim C5's theorem: a mixed-age sweep and a zero-eligible sweep. -/
theorem claim5_witness :
    ((∀ f ∈ ([⟨"old.png", Except.ok 0, none⟩, ⟨"new.png", Except.ok 900000, none⟩] :
        List SweepFile), (∃ b, f.stat = Except.ok b) ∧ f.renameFails = none) ∧
     (∀ f ∈ ([⟨"young.png", Except.ok 999000, none⟩] : List SweepFile),
        (∃ b, f.stat = Except.ok b) ∧ f.renameFails = none)) ∧
    ((cleanupOldFiles 1000000 [⟨"old.png", Except.ok 0, none⟩, ⟨"new.png", Except.ok 900000, none⟩]
        [("k", "u")] [("u", "k")]).renamed =
      (([⟨"old.png", Except.ok 0, none⟩, ⟨"new.png", Except.ok 900000, none⟩] :
        List SweepFile).filter (eligibleFile 1000000)).map SweepFile.name ∧
     (cleanupOldFiles 1000000 [⟨"old.png", Except.ok 0, none⟩, ⟨"new.png", Except.ok 900000, none⟩]
        [("k", "u")] [("u", "k")]).loggedErrors = [] ∧
     (cleanupOldFiles 1000000 [⟨"old.png", Except.ok 0, none⟩, ⟨"new.png", Except.ok 900000, none⟩]
        [("k", "u")] [("u", "k")]).movedCount =
      (([⟨"old.png", Except.ok 0, none⟩, ⟨"new.png", Except.ok 900000, none⟩] :
        List SweepFile).filter (eligibleFile 1000000)).length ∧
     (([⟨"old.png", Except.ok 0, none⟩, ⟨"new.png", Except.ok 900000, none⟩] :
        List SweepFile).filter (eligibleFile 1000000) = [] →
       (cleanupOldFiles 1000000 [⟨"old.png", Except.ok 0, none⟩, ⟨"new.png", Except.ok 900000, none⟩]
          [("k", "u")] [("u", "k")]).mediaMap = [("k", "u")] ∧
       (cleanupOldFiles 1000000 [⟨"old.png", Except.ok 0, none⟩, ⟨"new.png", Except.ok 900000, none⟩]
          [("k", "u")] [("u", "k")]).urlToKeyMap = [("u", "k")])) ∧
    (([⟨"young.png", Except.ok 999000, none⟩] : List SweepFile).filter (eligibleFile 1000000) = [] →
      (cleanupOldFiles 1000000 [⟨"young.png", Except.ok 999000, none⟩]
          [("k", "u")] [("u", "k")]).mediaMap = [("k", "u")] ∧
      (cleanupOldFiles 1000000 [⟨"young.png", Except.ok 999000, none⟩]
          [("k", "u")] [("u", "k")]).urlToKeyMap = [("u", "k")]) :=
  ⟨⟨(by
      intro f hf
      rcases List.mem_cons.mp hf with rfl | hf
      · exact ⟨⟨0, rfl⟩, rfl⟩
      rcases List.mem_cons.mp hf with rfl | hf
      · exact ⟨⟨900000, rfl⟩, rfl⟩
      · cases hf),
    (by
      intro f hf
      rcases List.mem_cons.mp hf with rfl | hf
      · exact ⟨⟨999000, rfl⟩, rfl⟩
      · cases hf)⟩,
    claim5_sweep_moves_exactly_eligible 1000000
      [⟨"old.png", Except.ok 0, none⟩, ⟨"new.png", Except.ok 900000, none⟩]
      [("k", "u")] [("u", "k")]
      (by
        intro f hf
        rcases List.mem_cons.mp hf with rfl | hf
        · exact ⟨⟨0, rfl⟩, rfl⟩
        rcases List.mem_cons.mp hf with rfl | hf
        · exact ⟨⟨900000, rfl⟩, rfl⟩
        · cases hf),
    (claim5_sweep_moves_exactly_eligible 1000000
      [⟨"young.png", Except.ok 999000, none⟩]
      [("k", "u")] [("u", "k")]
      (by
        intro f hf
        rcases List.mem_cons.mp hf with rfl | hf
        · exact ⟨⟨999000, rfl⟩, rfl⟩
        · cases hf)).2.2.2⟩

/-- A sweep iteration only ever appends to the error log: its other effects,
and what it appends, are independent of the log already accumulated. -/
lemma sweepFile_logs_shift (now : Int) (acc : SweepAcc) (f : SweepFile) :
    sweepFile now acc f =
      { sweepFile now { acc with loggedErrors := [] } f with
        loggedErrors := acc.loggedErrors ++
          (sweepFile now { acc with loggedErrors := [] } f).loggedErrors } := by
  rcases hst : f.stat with code | birth
  · by_cases hc : code = "ENOENT"
    · simp [sweepFile, hst, hc]
    · simp [sweepFile, hst, hc]
  · by_cases ha : ageExceedsLimit now birth = true
    · rcases hre : f.renameFails with _ | code
      · simp [sweepFile, hst, ha, hre]
      · by_cases hc : code = "ENOENT"
        · simp [sweepFile, hst, ha, hre, hc]
        · simp [sweepFile, hst, ha, hre, hc]
    · simp [sweepFile, hst, ha]

/-- Over a whole sweep, the accumulated error log is a prefix plus what the
remaining files contribute from an empty log. -/
lemma cleanup_fold_logs_shift (now : Int) :
    ∀ (files : List SweepFile) (mc : Nat) (rn lg : List String)
      (mm uk : List (String × String)),
      files.foldl (sweepFile now) ⟨mc, rn, lg, mm, uk⟩ =
        { files.foldl (sweepFile now) ⟨mc, rn, [], mm, uk⟩ with
          loggedErrors := lg ++
            (files.foldl (sweepFile now) ⟨mc, rn, [], mm, uk⟩).loggedErrors } := by
  intro files
  induction files with
  | nil => intro mc rn lg mm uk; simp
  | cons f rest ih =>
    intro mc rn lg mm uk
    simp only [List.foldl_cons]
    rw [sweepFile_logs_shift now ⟨mc, rn, lg, mm, uk⟩ f]
    rcases hsf : sweepFile now ⟨mc, rn, [], mm, uk⟩ f with ⟨mc', rn', d, mm', uk'⟩
    show rest.foldl (sweepFile now) ⟨mc', rn', lg ++ d, mm', uk'⟩ = _
    rw [ih mc' rn' (lg ++ d) mm' uk', ih mc' rn' d mm' uk']
    simp

/-- Claim C6 counterexample: a file that disappeared between listing and
stat — the claim's own example — raises ENOENT, and the sweep skips it
silently: nothing is logged, contradicting "is logged and that file
skipped".  (The per-file catch logs only non-ENOENT errors.) -/
theorem claim6_counterexample :
    (cleanupOldFiles 1000000 [⟨"gone.png", Except.error "ENOENT", none⟩]
        [("k", "u")] [("u", "k")]).loggedErrors = [] ∧
    (cleanupOldFiles 1000000 [⟨"gone.png", Except.error "ENOENT", none⟩]
        [("k", "u")] [("u", "k")]).renamed = [] := by
  constructor
  · decide
  · decide

/-- Claim C6 amended: a failure affecting a single file (stat failure, or
rename failure of an eligible file) never aborts the processing of the
remaining files of the sweep — the sweep result is that of the remaining
files, with at most one extra leading log line, emitted only when the error
code is not ENOENT (a vanished file is skipped silently); and a sweep whose
directory listing fails at top level is caught and logged, leaving the maps
unchanged and later scheduled sweeps untouched. -/
theorem claim6_amended_per_file_isolation (now : Int) (f : SweepFile)
    (rest : List SweepFile) (m u2k : List (String × String)) :
    (∀ code, f.stat = Except.error code →
      cleanupOldFiles now (f :: rest) m u2k =
        { cleanupOldFiles now rest m u2k with
          loggedErrors := (if code = "ENOENT" then [] else [fileErrLog f.name code]) ++
            (cleanupOldFiles now rest m u2k).loggedErrors }) ∧
    (∀ birth code, f.stat = Except.ok birth → ageExceedsLimit now birth = true →
      f.renameFails = some code →
      cleanupOldFiles now (f :: rest) m u2k =
        { cleanupOldFiles now rest m u2k with
          loggedErrors := (if code = "ENOENT" then [] else [fileErrLog f.name code]) ++
            (cleanupOldFiles now rest m u2k).loggedErrors }) ∧
    (∀ emsg ts, runSweeps m u2k (⟨now, Except.error emsg⟩ :: ts) =
        (⟨0, [], [], m, u2k⟩, some ("File cleanup error: " ++ emsg)) ::
          runSweeps m u2k ts) := by
  refine ⟨?_, ?_, ?_⟩
  · intro code hst
    show List.foldl (sweepFile now) ⟨0, [], [], m, u2k⟩ (f :: rest) = _
    rw [List.foldl_cons]
    have hsf : sweepFile now ⟨0, [], [], m, u2k⟩ f =
        ⟨0, [], if code = "ENOENT" then [] else [fileErrLog f.name code], m, u2k⟩ := by
      by_cases hc : code = "ENOENT"
      · simp [sweepFile, hst, hc]
      · simp [sweepFile, hst, hc]
    rw [hsf, cleanup_fold_logs_shift]
    rfl
  · intro birth code hst hage hre
    show List.foldl (sweepFile now) ⟨0, [], [], m, u2k⟩ (f :: rest) = _
    rw [List.foldl_cons]
    have hsf : sweepFile now ⟨0, [], [], m, u2k⟩ f =
        ⟨0, [], if code = "ENOENT" then [] else [fileErrLog f.name code], m, u2k⟩ := by
      by_cases hc : code = "ENOENT"
      · simp [sweepFile, hst, hage, hre, hc]
      · simp [sweepFile, hst, hage, hre, hc]
    rw [hsf, cleanup_fold_logs_shift]
    rfl
  · intro emsg ts
    rfl

/-- Concrete instance of claim C6's amended theorem: a non-ENOENT stat failure is logged and the remaining file is still processed. -/
theorem claim6_witness :
    ((⟨"locked.png", Except.error "EACCES", none⟩ : SweepFile).stat =
        Except.error "EACCES" ∧
     cleanupOldFiles 1000000
        [⟨"locked.png", Except.error "EACCES", none⟩, ⟨"old.png", Except.ok 0, none⟩]
        [("k", "u")] [("u", "k")] =
      { cleanupOldFiles 1000000 [⟨"old.png", Except.ok 0, none⟩] [("k", "u")] [("u", "k")] with
        loggedErrors := (if "EACCES" = "ENOENT" then []
            else [fileErrLog "locked.png" "EACCES"]) ++
          (cleanupOldFiles 1000000 [⟨"old.png", Except.ok 0, none⟩]
            [("k", "u")] [("u", "k")]).loggedErrors }) :=
  ⟨rfl,
    (claim6_amended_per_file_isolation 1000000
      ⟨"locked.png", Except.error "EACCES", none⟩
      [⟨"old.png", Except.ok 0, none⟩] [("k", "u")] [("u", "k")]).1 "EACCES" rfl⟩
